import Mathlib

set_option autoImplicit false
set_option maxHeartbeats 1000000

namespace BusTub

/-!
Shallow embedding of the storage runtime of myBusTub: the persistent trie
(`src/primer/trie.cpp`), the LRU-K replacer (`src/buffer/lru_k_replacer.cpp`),
the buffer pool manager (`src/buffer/buffer_pool_manager.cpp`), the page
guards (`src/storage/page/page_guard.cpp`) and the extendible hash table
directory page (`src/storage/page/extendible_htable_directory_page.cpp`).

C++ behaviour that is undefined (null-pointer dereference, out-of-bounds
indexing, exceptions thrown by the code) is modelled by `Except Unit` /
`Option` results, with `.error ()` / `none` marking the faulting executions.
-/

/-! ### Persistent trie (`src/primer/trie.cpp`) -/

/-- A trie node as declared in `trie.h` (the header is summarised in §3 of the
spec): a children map keyed by character and an optional type-erased value.
A `TrieNodeWithValue<T>` is represented by `value = some (tag, v)` where `tag`
is the runtime type tag of `T` (a `dynamic_cast` to `TrieNodeWithValue<T>`
succeeds exactly when the tags match) and `v` is the payload; a plain
`TrieNode` has `value = none`. -/
inductive TNode where
  | mk (children : List (Nat × TNode)) (value : Option (Nat × Nat))

/-- The children map of a node. -/
def TNode.children : TNode → List (Nat × TNode)
  | .mk c _ => c

/-- The optional (type tag, payload) value of a node. -/
def TNode.value : TNode → Option (Nat × Nat)
  | .mk _ v => v

/-- A trie handle: a possibly absent immutable root, as in `trie.h`
(`std::shared_ptr<const TrieNode> root_`, null for the empty trie). -/
structure Trie where
  root : Option TNode

/-- `children_.find(ch)`: first entry with the given key (keys are unique). -/
def lookupChild : List (Nat × TNode) → Nat → Option TNode
  | [], _ => none
  | (k, n) :: rest, c => if k = c then some n else lookupChild rest c

/-- `new_children[ch] = node`: replace the entry for `ch`, or add one. -/
def insertChild : List (Nat × TNode) → Nat → TNode → List (Nat × TNode)
  | [], c, n => [(c, n)]
  | (k, m) :: rest, c, n =>
    if k = c then (c, n) :: rest else (k, m) :: insertChild rest c n

/-- The walk of `Trie::Get` (trie.cpp 18-26): follow children by successive
key characters.  `.ok none` is the early `return nullptr` on a missing child,
`.ok (some n)` ends the walk at node `n`, and `.error ()` is the dereference
of a null `node` in `node->children_.find(ch)`, which happens exactly when the
root is absent and the key is non-empty. -/
def trieWalk : Option TNode → List Nat → Except Unit (Option TNode)
  | node, [] => .ok node
  | none, _ :: _ => .error ()
  | some n, c :: cs =>
    match lookupChild n.children c with
    | none => .ok none
    | some child => trieWalk (some child) cs

/-- `Trie::Get<T>` (trie.cpp 10-30): walk the key, then `dynamic_cast` the
terminal node to `TrieNodeWithValue<T>`; return the payload when the cast
succeeds and null otherwise. -/
def trieGet (t : Trie) (key : List Nat) (tag : Nat) : Except Unit (Option Nat) :=
  match trieWalk t.root key with
  | .error () => .error ()
  | .ok none => .ok none
  | .ok (some n) =>
    match n.value with
    | some (vtag, v) => .ok (if vtag = tag then some v else none)
    | none => .ok none

/-- The chain-building loops of `Trie::Put` (trie.cpp 44-48 and 92-96): wrap
`leaf` in single-child plain nodes, one per key character, innermost first. -/
def wrapChain (key : List Nat) (leaf : TNode) : TNode :=
  key.foldr (fun c acc => TNode.mk [(c, acc)] none) leaf

/-- One step of the path-rebuilding loops of `Trie::Put` (trie.cpp 70-83 and
98-113): copy `parent` with its child at `c` replaced by `child`.  The copy
keeps the parent's value only when `dynamic_cast<const TrieNodeWithValue<T>>`
succeeds, i.e. when the parent's type tag equals the tag `T` being put; a
value of a different dynamic type is dropped by the source. -/
def withChild (tag : Nat) (parent : TNode) (c : Nat) (child : TNode) : TNode :=
  TNode.mk (insertChild parent.children c child)
    (match parent.value with
     | some (ptag, pv) => if ptag = tag then some (ptag, pv) else none
     | none => none)

/-- The stack-collecting walk of `Trie::Put` (trie.cpp 52-64): push each
visited node together with the character looked up at it; stop on the first
missing child.  Returns (stack shallowest-first, last visited node,
unmatched key suffix). -/
def putWalk (node : TNode) : List Nat → List (TNode × Nat) × TNode × List Nat
  | [] => ([], node, [])
  | c :: cs =>
    match lookupChild node.children c with
    | none => ([(node, c)], node, c :: cs)
    | some child =>
      let r := putWalk child cs
      ((node, c) :: r.1, r.2)

/-- The non-empty-root branches of `Trie::Put<T>` (trie.cpp 52-115).  Full
key match (trie.cpp 66-86): replace the terminal by a value node keeping its
children, then rebuild along the stack.  Partial match (trie.cpp 88-115):
build a chain for the unmatched suffix and attach it while rebuilding along
the stack. -/
def putAux (tag v : Nat) (root : TNode) (key : List Nat) : TNode :=
  let w := putWalk root key
  match w.2.2 with
  | [] =>
    w.1.foldr (fun p acc => withChild tag p.1 p.2 acc)
      (TNode.mk w.2.1.children (some (tag, v)))
  | _ :: cs =>
    w.1.foldr (fun p acc => withChild tag p.1 p.2 acc)
      (wrapChain cs (TNode.mk [] (some (tag, v))))

/-- `Trie::Put<T>` (trie.cpp 33-116).  Empty root (trie.cpp 40-50): build a
fresh chain ending in a childless value node; otherwise walk and rebuild as
in `putAux`. -/
def triePut (t : Trie) (key : List Nat) (tag : Nat) (v : Nat) : Trie :=
  match t.root with
  | none => ⟨some (wrapChain key (TNode.mk [] (some (tag, v))))⟩
  | some root => ⟨some (putAux tag v root key)⟩

/-- The terminal node installed at `key` by `putAux`: on a full match it keeps
the old terminal's children, on a partial match it is childless. -/
def putTerminal (tag v : Nat) (root : TNode) (key : List Nat) : TNode :=
  match (putWalk root key).2.2 with
  | [] => TNode.mk (putWalk root key).2.1.children (some (tag, v))
  | _ :: _ => TNode.mk [] (some (tag, v))

/-- `Trie::Remove` (trie.cpp 118-123): the body unconditionally throws
`NotImplementedException`; the thrown exception is modelled as `.error ()`. -/
def trieRemove (_t : Trie) (_key : List Nat) : Except Unit Trie := .error ()

/-! #### Trie lemmas -/

theorem lookupChild_insertChild_self (cs : List (Nat × TNode)) (c : Nat) (n : TNode) :
    lookupChild (insertChild cs c n) c = some n := by
  induction cs with
  | nil => simp [insertChild, lookupChild]
  | cons p rest ih =>
    obtain ⟨k, m⟩ := p
    by_cases h : k = c
    · simp [insertChild, h, lookupChild]
    · simp [insertChild, h, lookupChild, ih]

theorem trieWalk_wrapChain (key : List Nat) (leaf : TNode) :
    trieWalk (some (wrapChain key leaf)) key = .ok (some leaf) := by
  induction key with
  | nil => rfl
  | cons c cs ih =>
    have hc : wrapChain (c :: cs) leaf = TNode.mk [(c, wrapChain cs leaf)] none := rfl
    rw [hc]
    simp [trieWalk, TNode.children, lookupChild, ih]

theorem putAux_nil (tag v : Nat) (root : TNode) :
    putAux tag v root [] = TNode.mk root.children (some (tag, v)) := rfl

theorem putAux_cons_miss (tag v c : Nat) (cs : List Nat) (root : TNode)
    (h : lookupChild root.children c = none) :
    putAux tag v root (c :: cs) =
      withChild tag root c (wrapChain cs (TNode.mk [] (some (tag, v)))) := by
  simp [putAux, putWalk, h]

theorem putWalk_cons_hit (c : Nat) (cs : List Nat) (root child : TNode)
    (h : lookupChild root.children c = some child) :
    putWalk root (c :: cs) = ((root, c) :: (putWalk child cs).1, (putWalk child cs).2) := by
  simp [putWalk, h]

theorem putAux_cons_hit (tag v c : Nat) (cs : List Nat) (root child : TNode)
    (h : lookupChild root.children c = some child) :
    putAux tag v root (c :: cs) = withChild tag root c (putAux tag v child cs) := by
  unfold putAux
  rw [putWalk_cons_hit c cs root child h]
  cases hrem : (putWalk child cs).2.2 <;> simp [hrem]

theorem putTerminal_cons_hit (tag v c : Nat) (cs : List Nat) (root child : TNode)
    (h : lookupChild root.children c = some child) :
    putTerminal tag v root (c :: cs) = putTerminal tag v child cs := by
  unfold putTerminal
  rw [putWalk_cons_hit c cs root child h]

theorem putTerminal_value (tag v : Nat) (root : TNode) (key : List Nat) :
    (putTerminal tag v root key).value = some (tag, v) := by
  unfold putTerminal
  cases (putWalk root key).2.2 <;> rfl

theorem trieWalk_putAux (tag v : Nat) :
    ∀ (key : List Nat) (root : TNode),
      trieWalk (some (putAux tag v root key)) key = .ok (some (putTerminal tag v root key)) := by
  intro key
  induction key with
  | nil =>
    intro root
    rfl
  | cons c cs ih =>
    intro root
    cases hl : lookupChild root.children c with
    | none =>
      rw [putAux_cons_miss tag v c cs root hl]
      have hwc : (withChild tag root c (wrapChain cs (TNode.mk [] (some (tag, v))))).children =
          insertChild root.children c (wrapChain cs (TNode.mk [] (some (tag, v)))) := rfl
      have hterm : putTerminal tag v root (c :: cs) = TNode.mk [] (some (tag, v)) := by
        unfold putTerminal
        simp [putWalk, hl]
      rw [hterm]
      cases hwcn : withChild tag root c (wrapChain cs (TNode.mk [] (some (tag, v)))) with
      | mk ch vl =>
        have hch : ch = insertChild root.children c (wrapChain cs (TNode.mk [] (some (tag, v)))) := by
          have := hwc
          rw [hwcn] at this
          exact this
        simp [trieWalk, TNode.children, hch, lookupChild_insertChild_self,
          trieWalk_wrapChain]
    | some child =>
      rw [putAux_cons_hit tag v c cs root child hl,
        putTerminal_cons_hit tag v c cs root child hl]
      cases hwcn : withChild tag root c (putAux tag v child cs) with
      | mk ch vl =>
        have hch : ch = insertChild root.children c (putAux tag v child cs) := by
          have : (withChild tag root c (putAux tag v child cs)).children =
              insertChild root.children c (putAux tag v child cs) := rfl
          rw [hwcn] at this
          exact this
        simp [trieWalk, TNode.children, hch, lookupChild_insertChild_self, ih]

theorem putWalk_of_trieWalk :
    ∀ (key : List Nat) (root n : TNode),
      trieWalk (some root) key = .ok (some n) → (putWalk root key).2 = (n, []) := by
  intro key
  induction key with
  | nil =>
    intro root n h
    simp [trieWalk] at h
    rw [← h]
    rfl
  | cons c cs ih =>
    intro root n h
    cases hl : lookupChild root.children c with
    | none => simp [trieWalk, hl] at h
    | some child =>
      have h2 : trieWalk (some child) cs = .ok (some n) := by
        simpa [trieWalk, hl] using h
      rw [putWalk_cons_hit c cs root child hl]
      exact ih child n h2

theorem trieGet_of_walk (root : Option TNode) (key : List Nat) (tag v : Nat) (n : TNode)
    (hw : trieWalk root key = .ok (some n)) (hv : n.value = some (tag, v)) :
    trieGet ⟨root⟩ key tag = .ok (some v) := by
  simp [trieGet, hw, hv]

/-- Every `Put` yields a trie whose walk along the put key ends in a node
carrying the put value; the full-match case keeps the walk target's children. -/
theorem triePut_walk (t : Trie) (key : List Nat) (tag v : Nat) :
    ∃ root1 n1, (triePut t key tag v).root = some root1 ∧
      trieWalk (some root1) key = .ok (some n1) ∧ n1.value = some (tag, v) := by
  cases ht : t.root with
  | none =>
    refine ⟨wrapChain key (TNode.mk [] (some (tag, v))), TNode.mk [] (some (tag, v)),
      ?_, trieWalk_wrapChain key _, rfl⟩
    simp [triePut, ht]
  | some root =>
    refine ⟨putAux tag v root key, putTerminal tag v root key, ?_,
      trieWalk_putAux tag v key root, putTerminal_value tag v root key⟩
    simp [triePut, ht]

/-- C8: for every trie `t`, key and value, `(t.Put k v).Get k` returns `v`;
a second `Put` on the same key replaces the value while preserving the
terminal node's existing children.  Persistence is definitional in this pure
embedding: `triePut` constructs a new `Trie` value and `t` itself is
unchanged, so `trieGet t` applied to any key denotes the same result before
and after the call. -/
theorem triePut_trieGet_laws (t : Trie) (key : List Nat) (tag v1 v2 : Nat) :
    trieGet (triePut t key tag v1) key tag = .ok (some v1) ∧
    trieGet (triePut (triePut t key tag v1) key tag v2) key tag = .ok (some v2) ∧
    ∃ n1 n2 : TNode,
      trieWalk (triePut t key tag v1).root key = .ok (some n1) ∧
      trieWalk (triePut (triePut t key tag v1) key tag v2).root key = .ok (some n2) ∧
      n2.children = n1.children ∧ n1.value = some (tag, v1) ∧ n2.value = some (tag, v2) := by
  obtain ⟨root1, n1, hroot1, hwalk1, hval1⟩ := triePut_walk t key tag v1
  have hput2 : triePut (triePut t key tag v1) key tag v2 = ⟨some (putAux tag v2 root1 key)⟩ := by
    cases hput1 : triePut t key tag v1 with
    | mk r =>
      rw [hput1] at hroot1
      simp at hroot1
      simp [triePut, hroot1]
  have hfull : (putWalk root1 key).2 = (n1, []) := putWalk_of_trieWalk key root1 n1 hwalk1
  have hterm2 : putTerminal tag v2 root1 key = TNode.mk n1.children (some (tag, v2)) := by
    unfold putTerminal
    rw [hfull]
  have hwalk2 : trieWalk (some (putAux tag v2 root1 key)) key =
      .ok (some (TNode.mk n1.children (some (tag, v2)))) := by
    rw [trieWalk_putAux tag v2 key root1, hterm2]
  have hget1 : trieGet (triePut t key tag v1) key tag = .ok (some v1) := by
    cases hput1 : triePut t key tag v1 with
    | mk r =>
      rw [hput1] at hroot1
      simp at hroot1
      rw [hroot1]
      exact trieGet_of_walk (some root1) key tag v1 n1 hwalk1 hval1
  refine ⟨hget1, ?_, n1, TNode.mk n1.children (some (tag, v2)), ?_, ?_, rfl, hval1, rfl⟩
  · rw [hput2]
    exact trieGet_of_walk (some (putAux tag v2 root1 key)) key tag v2 _ hwalk2 rfl
  · cases hput1 : triePut t key tag v1 with
    | mk r =>
      rw [hput1] at hroot1
      simp at hroot1
      rw [hroot1]
      exact hwalk1
  · rw [hput2]
    exact hwalk2

/-- C7: `Trie::Get` on the empty trie (absent root) dereferences the null
root as soon as the key is non-empty (trie.cpp 21 evaluates
`node->children_` with `node == nullptr`), while the empty key still returns
null; the claimed totality fails. -/
theorem trieGet_empty_root_faults :
    trieGet ⟨none⟩ [97] 0 = .error () ∧ trieGet ⟨none⟩ [] 0 = .ok none :=
  ⟨rfl, rfl⟩

/-- C3: `Trie::Remove` unconditionally throws `NotImplementedException`
(trie.cpp 119), even for a key that is present: after putting key "a" the
value is retrievable, yet `Remove` of that key errors instead of returning a
new trie. -/
theorem trieRemove_always_throws :
    trieRemove (triePut ⟨none⟩ [97] 0 1) [97] = .error () ∧
    trieGet (triePut ⟨none⟩ [97] 0 1) [97] 0 = .ok (some 1) :=
  ⟨rfl, rfl⟩

/-! ### LRU-K replacer (`src/buffer/lru_k_replacer.cpp`)

`size_t` values are modelled as `Nat`; the wrap-around of `size_t` arithmetic
matters only in the weighted-distance computation (`wsub`, `% U64`); the
monotone counters (`current_timestamp_`, `curr_size_`) stay far below `2^64`
in any execution, so they are modelled as plain `Nat`. -/

/-- `2^64`, the modulus of `size_t` arithmetic. -/
def U64 : Nat := 18446744073709551616

/-- `INF_TIMESTAMP = std::numeric_limits<size_t>::max()` (lru_k_replacer.cpp 18). -/
def INF_TIMESTAMP : Nat := 18446744073709551615

/-- `size_t` subtraction with wrap-around; equals `a - b` when `b ≤ a < 2^64`. -/
def wsub (a b : Nat) : Nat := (a % U64 + (U64 - b % U64)) % U64

theorem wsub_eq_sub {a b : Nat} (h1 : b ≤ a) (h2 : a < U64) : wsub a b = a - b := by
  unfold wsub U64 at *
  omega

/-- Access kinds (`AccessType`, §6 of the spec; the enum lives in a header
outside `src/`). -/
inductive AccessType where
  | unknown
  | lookup
  | scan
  | index
deriving DecidableEq, Repr

/-- `LRUKNode::GetAccessWeight` (lru_k_replacer.cpp 56-68). -/
def getAccessWeight : AccessType → Nat
  | .unknown => 1
  | .index => 1
  | .scan => 2
  | .lookup => 3

/-- One access-history entry `(timestamp, weight)` (spec §3, LRU-K Node). -/
structure AccessEntry where
  ts : Nat
  weight : Nat
deriving DecidableEq, Repr

/-- `LRUKNode` (declared in `lru_k_replacer.h`, absent from `src/`; fields per
spec §3).  `history` is ordered oldest-first (the C++ deque front is the
oldest entry).  The header initialises `is_evictable_` to `false`; the buffer
pool always sets evictability explicitly right after recording an access. -/
structure LRUKNode where
  fid : Nat
  k : Nat
  evictable : Bool
  history : List AccessEntry
  totalWeight : Nat
deriving DecidableEq, Repr

/-- `LRUKNode::RecordAccess` (lru_k_replacer.cpp 28-36): on a full history
pop the oldest entry and subtract its weight, then append the new entry.
`none` models the undefined `front()`/`pop_front()` on an empty deque, which
is reachable only with `k = 0`. -/
def LRUKNode.recordAccess (n : LRUKNode) (ts : Nat) (ty : AccessType) : Option LRUKNode :=
  if n.history.length = n.k then
    match n.history with
    | [] => none
    | h :: rest =>
      some { n with history := rest ++ [⟨ts, getAccessWeight ty⟩],
                    totalWeight := wsub n.totalWeight h.weight + getAccessWeight ty }
  else
    some { n with history := n.history ++ [⟨ts, getAccessWeight ty⟩],
                  totalWeight := n.totalWeight + getAccessWeight ty }

/-- `LRUKNode::GetEarliestTimestamp` (lru_k_replacer.cpp 38): `front()` on an
empty history is undefined, modelled as `none`. -/
def LRUKNode.getEarliestTimestamp (n : LRUKNode) : Option Nat :=
  n.history.head?.map AccessEntry.ts

/-- `LRUKNode::GetKBackDist` (lru_k_replacer.cpp 40-46). -/
def LRUKNode.getKBackDist (n : LRUKNode) (cur : Nat) : Option Nat :=
  if n.history.length < n.k then some INF_TIMESTAMP
  else
    match n.history with
    | [] => none
    | h :: _ => some (wsub cur h.ts)

/-- `LRUKNode::GetWeightedKBackDist` (lru_k_replacer.cpp 48-54):
`total_weight_ * GetKBackDist(current) / k_` in `size_t` arithmetic.  `none`
models the undefined division by `k_ = 0` / `front()` on an empty deque. -/
def LRUKNode.getWeightedKBackDist (n : LRUKNode) (cur : Nat) : Option Nat :=
  if n.history.length < n.k then some INF_TIMESTAMP
  else
    match n.getKBackDist cur with
    | none => none
    | some d => if n.k = 0 then none else some (n.totalWeight * d % U64 / n.k)

/-- `LRUKReplacer` state (`lru_k_replacer.h`, fields per spec §3).  `store`
lists the entries of the `std::unordered_map` `node_store_` in its
(implementation-defined) iteration order; keys are unique. -/
structure LRUKReplacer where
  store : List LRUKNode
  currSize : Nat
  currTs : Nat
  k : Nat
  replacerSize : Nat
deriving DecidableEq, Repr

/-- `node_store_.find(fid)`. -/
def findNode : List LRUKNode → Nat → Option LRUKNode
  | [], _ => none
  | n :: rest, f => if n.fid = f then some n else findNode rest f

/-- In-place mutation of the node with the given frame id. -/
def updateNode : List LRUKNode → Nat → LRUKNode → List LRUKNode
  | [], _, _ => []
  | n :: rest, f, m => if n.fid = f then m :: rest else n :: updateNode rest f m

/-- The scan loop of `LRUKReplacer::Evict` (lru_k_replacer.cpp 82-98):
collect the evictable infinite-distance nodes in iteration order and track
the strict maximum of the finite weighted distances (initial maximum `0`,
initial node null). -/
def evictScan (cur : Nat) :
    List LRUKNode → List LRUKNode → Nat → Option LRUKNode →
    Except Unit (List LRUKNode × Nat × Option LRUKNode)
  | [], infs, m, best => .ok (infs, m, best)
  | n :: rest, infs, m, best =>
    if n.evictable then
      match n.getWeightedKBackDist cur with
      | none => .error ()
      | some d =>
        if d = INF_TIMESTAMP then evictScan cur rest (infs ++ [n]) m best
        else if m < d then evictScan cur rest infs d (some n)
        else evictScan cur rest infs m best
    else evictScan cur rest infs m best

/-- `std::min_element` over the infinite-distance nodes with comparator
`GetEarliestTimestamp` (lru_k_replacer.cpp 102-104): keeps the first element
on ties; dereferencing an empty history is undefined (`.error`). -/
def minEarliestAux : LRUKNode → List LRUKNode → Except Unit LRUKNode
  | best, [] => .ok best
  | best, n :: rest =>
    match n.getEarliestTimestamp, best.getEarliestTimestamp with
    | some tn, some tb =>
      if tn < tb then minEarliestAux n rest else minEarliestAux best rest
    | _, _ => .error ()

/-- `LRUKReplacer::Evict` (lru_k_replacer.cpp 72-114).  `.ok none` is the
`return false` path; `.error ()` models the undefined dereference of a null
victim (possible only in states violating the replacer's invariants).  The
victim's entry is erased and the evictable count decremented. -/
def lruEvict (r : LRUKReplacer) : Except Unit (Option (Nat × LRUKReplacer)) :=
  if r.store = [] ∨ r.currSize = 0 then .ok none
  else
    match evictScan r.currTs r.store [] 0 none with
    | .error () => .error ()
    | .ok (infs, _, best) =>
      match infs with
      | [] =>
        match best with
        | none => .error ()
        | some vNode =>
          .ok (some (vNode.fid,
            { r with store := r.store.filter (fun n => n.fid != vNode.fid),
                     currSize := r.currSize - 1 }))
      | i :: is =>
        match minEarliestAux i is with
        | .error () => .error ()
        | .ok vNode =>
          .ok (some (vNode.fid,
            { r with store := r.store.filter (fun n => n.fid != vNode.fid),
                     currSize := r.currSize - 1 }))

/-- `LRUKReplacer::RecordAccess` (lru_k_replacer.cpp 116-133): reject frame
ids at or above the capacity (`none` models the thrown
`std::invalid_argument`), create the node on first access (inserted into the
unordered map, modelled at the end of the iteration order), and advance the
timestamp. -/
def lruRecordAccess (r : LRUKReplacer) (fid : Nat) (ty : AccessType) : Option LRUKReplacer :=
  if r.replacerSize ≤ fid then none
  else
    match findNode r.store fid with
    | none =>
      match (LRUKNode.mk fid r.k false [] 0).recordAccess r.currTs ty with
      | none => none
      | some node => some { r with store := r.store ++ [node], currTs := r.currTs + 1 }
    | some n =>
      match n.recordAccess r.currTs ty with
      | none => none
      | some node =>
        some { r with store := updateNode r.store fid node, currTs := r.currTs + 1 }

/-- `LRUKReplacer::SetEvictable` (lru_k_replacer.cpp 135-150): `none` models
the thrown `std::invalid_argument` when the frame id is absent. -/
def lruSetEvictable (r : LRUKReplacer) (fid : Nat) (b : Bool) : Option LRUKReplacer :=
  match findNode r.store fid with
  | none => none
  | some n =>
    if b && !n.evictable then
      some { r with store := updateNode r.store fid { n with evictable := true },
                    currSize := r.currSize + 1 }
    else if !b && n.evictable then
      some { r with store := updateNode r.store fid { n with evictable := false },
                    currSize := r.currSize - 1 }
    else some r

/-- `LRUKReplacer::Size` (lru_k_replacer.cpp 167). -/
def lruSize (r : LRUKReplacer) : Nat := r.currSize

/-! #### Replacer lemmas -/

/-- The weighted K-back distance as a plain number (its value under `getD`). -/
def wkdVal (cur : Nat) (n : LRUKNode) : Nat := (n.getWeightedKBackDist cur).getD 0

/-- The earliest recorded timestamp as a plain number. -/
def headTs (n : LRUKNode) : Nat := n.getEarliestTimestamp.getD 0

/-- The classification used by the `Evict` scan: evictable with an
infinite weighted distance. -/
def infP (cur : Nat) (n : LRUKNode) : Bool :=
  n.evictable && (n.getWeightedKBackDist cur == some INF_TIMESTAMP)

theorem wkdVal_eq {cur d : Nat} {n : LRUKNode}
    (h : n.getWeightedKBackDist cur = some d) : wkdVal cur n = d := by
  unfold wkdVal
  rw [h]
  rfl

theorem earliest_of_ne {n : LRUKNode} (h : n.history ≠ []) :
    n.getEarliestTimestamp = some (headTs n) := by
  cases hh : n.history with
  | nil => exact absurd hh h
  | cons e rest =>
    unfold headTs LRUKNode.getEarliestTimestamp
    rw [hh]
    rfl

theorem wkd_of_infinite (cur : Nat) (n : LRUKNode) (h : n.history.length < n.k) :
    n.getWeightedKBackDist cur = some INF_TIMESTAMP := by
  unfold LRUKNode.getWeightedKBackDist
  rw [if_pos h]

theorem length_le_weight_sum :
    ∀ l : List AccessEntry, (∀ e ∈ l, 1 ≤ e.weight) →
      l.length ≤ (l.map AccessEntry.weight).sum := by
  intro l h
  induction l with
  | nil => simp
  | cons e rest ih =>
    simp only [List.map_cons, List.sum_cons, List.length_cons]
    have h1 := h e (List.mem_cons_self e rest)
    have h2 := ih fun x hx => h x (List.mem_cons_of_mem e hx)
    omega

theorem wkd_of_finite (cur : Nat) (n : LRUKNode)
    (hk : 1 ≤ n.k) (hne : n.history ≠ []) (hlen : n.history.length ≤ n.k)
    (htw : n.totalWeight = (n.history.map AccessEntry.weight).sum)
    (hwts : ∀ e ∈ n.history, 1 ≤ e.weight ∧ e.ts < cur)
    (htwb : n.totalWeight ≤ 65536) (hcur : cur ≤ 4294967296)
    (hfin : n.k ≤ n.history.length) :
    n.getWeightedKBackDist cur = some (wkdVal cur n) ∧
      1 ≤ wkdVal cur n ∧ wkdVal cur n < INF_TIMESTAMP := by
  cases hh : n.history with
  | nil => exact absurd hh hne
  | cons e rest =>
    have hmem : e ∈ n.history := by rw [hh]; exact List.mem_cons_self e rest
    have hts : e.ts < cur := (hwts e hmem).2
    have hnlt : ¬n.history.length < n.k := not_lt.mpr hfin
    have hk0 : ¬n.k = 0 := by omega
    have h1 : n.getKBackDist cur = some (wsub cur e.ts) := by
      unfold LRUKNode.getKBackDist
      rw [if_neg hnlt, hh]
    have hcu : cur < U64 := by unfold U64; omega
    have hws : wsub cur e.ts = cur - e.ts := wsub_eq_sub (le_of_lt hts) hcu
    have hPb : n.totalWeight * (cur - e.ts) ≤ 281474976710656 := by
      calc n.totalWeight * (cur - e.ts) ≤ 65536 * 4294967296 :=
            Nat.mul_le_mul htwb (le_trans (Nat.sub_le _ _) hcur)
        _ = 281474976710656 := by norm_num
    have hPU : n.totalWeight * (cur - e.ts) < U64 := by
      unfold U64
      omega
    have hmod : n.totalWeight * (cur - e.ts) % U64 = n.totalWeight * (cur - e.ts) :=
      Nat.mod_eq_of_lt hPU
    have h2 : n.getWeightedKBackDist cur =
        some (n.totalWeight * (cur - e.ts) / n.k) := by
      unfold LRUKNode.getWeightedKBackDist
      rw [if_neg hnlt, h1, hws]
      simp [hk0, hmod]
    have hlenk : n.history.length = n.k := le_antisymm hlen hfin
    have hktw : n.k ≤ n.totalWeight := by
      have := length_le_weight_sum n.history fun x hx => (hwts x hx).1
      omega
    have hd1 : 1 ≤ cur - e.ts := by omega
    have hkP : n.k ≤ n.totalWeight * (cur - e.ts) := by
      calc n.k ≤ n.totalWeight := hktw
        _ = n.totalWeight * 1 := (Nat.mul_one _).symm
        _ ≤ n.totalWeight * (cur - e.ts) := Nat.mul_le_mul_left _ hd1
    have hge1 : 1 ≤ n.totalWeight * (cur - e.ts) / n.k :=
      (Nat.le_div_iff_mul_le (by omega)).mpr (by omega)
    have hlt : n.totalWeight * (cur - e.ts) / n.k < INF_TIMESTAMP := by
      have hdl : n.totalWeight * (cur - e.ts) / n.k ≤ n.totalWeight * (cur - e.ts) :=
        Nat.div_le_self _ _
      unfold INF_TIMESTAMP
      omega
    have hv : wkdVal cur n = n.totalWeight * (cur - e.ts) / n.k := wkdVal_eq h2
    rw [hv]
    exact ⟨h2, hge1, hlt⟩

theorem evictScan_infs (cur : Nat) :
    ∀ (l infs : List LRUKNode) (m : Nat) (best : Option LRUKNode),
      (∀ n ∈ l, n.evictable = true → ∃ d, n.getWeightedKBackDist cur = some d) →
      ∃ m2 best2,
        evictScan cur l infs m best = .ok (infs ++ l.filter (infP cur), m2, best2) := by
  intro l
  induction l with
  | nil =>
    intro infs m best _
    exact ⟨m, best, by simp [evictScan]⟩
  | cons n rest ih =>
    intro infs m best h
    have hrest : ∀ x ∈ rest, x.evictable = true →
        ∃ d, x.getWeightedKBackDist cur = some d :=
      fun x hx => h x (List.mem_cons_of_mem n hx)
    cases hb : n.evictable with
    | false =>
      obtain ⟨m2, best2, hq⟩ := ih infs m best hrest
      refine ⟨m2, best2, ?_⟩
      rw [show evictScan cur (n :: rest) infs m best = evictScan cur rest infs m best by
        simp [evictScan, hb], hq]
      simp [infP, hb]
    | true =>
      obtain ⟨d, hd⟩ := h n (List.mem_cons_self n rest) hb
      by_cases hdi : d = INF_TIMESTAMP
      · obtain ⟨m2, best2, hq⟩ := ih (infs ++ [n]) m best hrest
        refine ⟨m2, best2, ?_⟩
        rw [show evictScan cur (n :: rest) infs m best =
            evictScan cur rest (infs ++ [n]) m best by simp [evictScan, hb, hd, hdi], hq]
        have hip : infP cur n = true := by
          simp [infP, hb, hd, hdi]
        simp [hip]
      · have hip : infP cur n = false := by
          simp [infP, hb, hd, hdi]
        by_cases hmd : m < d
        · obtain ⟨m2, best2, hq⟩ := ih infs d (some n) hrest
          refine ⟨m2, best2, ?_⟩
          rw [show evictScan cur (n :: rest) infs m best =
              evictScan cur rest infs d (some n) by simp [evictScan, hb, hd, hdi, hmd], hq]
          simp [hip]
        · obtain ⟨m2, best2, hq⟩ := ih infs m best hrest
          refine ⟨m2, best2, ?_⟩
          rw [show evictScan cur (n :: rest) infs m best =
              evictScan cur rest infs m best by simp [evictScan, hb, hd, hdi, hmd], hq]
          simp [hip]

theorem evictScan_finite (cur : Nat) :
    ∀ (l infs : List LRUKNode) (m : Nat) (best : Option LRUKNode),
      (∀ n ∈ l, n.evictable = true →
        ∃ d, n.getWeightedKBackDist cur = some d ∧ d ≠ INF_TIMESTAMP ∧ 1 ≤ d) →
      ∃ M B, evictScan cur l infs m best = .ok (infs, M, B) ∧ m ≤ M ∧
        (∀ q ∈ l, q.evictable = true → wkdVal cur q ≤ M) ∧
        ((B = best ∧ M = m) ∨
         (∃ v pre post, B = some v ∧ l = pre ++ v :: post ∧ v.evictable = true ∧
           wkdVal cur v = M ∧ m < M ∧
           ∀ p ∈ pre, p.evictable = true → wkdVal cur p < M)) := by
  intro l
  induction l with
  | nil =>
    intro infs m best _
    exact ⟨m, best, by simp [evictScan], le_refl m, by simp, Or.inl ⟨rfl, rfl⟩⟩
  | cons n rest ih =>
    intro infs m best h
    have hrest : ∀ x ∈ rest, x.evictable = true →
        ∃ d, x.getWeightedKBackDist cur = some d ∧ d ≠ INF_TIMESTAMP ∧ 1 ≤ d :=
      fun x hx => h x (List.mem_cons_of_mem n hx)
    cases hb : n.evictable with
    | false =>
      obtain ⟨M, B, heq, hmM, hall, hdisj⟩ := ih infs m best hrest
      refine ⟨M, B, ?_, hmM, ?_, ?_⟩
      · rw [show evictScan cur (n :: rest) infs m best = evictScan cur rest infs m best by
          simp [evictScan, hb], heq]
      · intro q hq hqe
        rcases List.mem_cons.mp hq with hq1 | hq2
        · rw [hq1] at hqe; rw [hb] at hqe; cases hqe
        · exact hall q hq2 hqe
      · rcases hdisj with hl | ⟨v, pre, post, hB, hsplit, hvev, hvM, hmlt, hpre⟩
        · exact Or.inl hl
        · refine Or.inr ⟨v, n :: pre, post, hB, by rw [hsplit]; rfl, hvev, hvM, hmlt, ?_⟩
          intro p hp hpe
          rcases List.mem_cons.mp hp with hp1 | hp2
          · rw [hp1] at hpe; rw [hb] at hpe; cases hpe
          · exact hpre p hp2 hpe
    | true =>
      obtain ⟨d, hd, hdINF, hd1⟩ := h n (List.mem_cons_self n rest) hb
      have hwn : wkdVal cur n = d := wkdVal_eq hd
      by_cases hmd : m < d
      · obtain ⟨M, B, heq, hdM, hall, hdisj⟩ := ih infs d (some n) hrest
        refine ⟨M, B, ?_, by omega, ?_, ?_⟩
        · rw [show evictScan cur (n :: rest) infs m best = evictScan cur rest infs d (some n) by
            simp [evictScan, hb, hd, hdINF, hmd], heq]
        · intro q hq hqe
          rcases List.mem_cons.mp hq with hq1 | hq2
          · rw [hq1, hwn]; omega
          · exact hall q hq2 hqe
        · rcases hdisj with ⟨hB, hM⟩ | ⟨v, pre, post, hB, hsplit, hvev, hvM, hmlt, hpre⟩
          · refine Or.inr ⟨n, [], rest, by rw [hB], rfl, hb, by omega, by omega, ?_⟩
            intro p hp
            cases hp
          · refine Or.inr ⟨v, n :: pre, post, hB, by rw [hsplit]; rfl, hvev, hvM, by omega, ?_⟩
            intro p hp hpe
            rcases List.mem_cons.mp hp with hp1 | hp2
            · rw [hp1, hwn]; omega
            · exact hpre p hp2 hpe
      · obtain ⟨M, B, heq, hmM, hall, hdisj⟩ := ih infs m best hrest
        refine ⟨M, B, ?_, hmM, ?_, ?_⟩
        · rw [show evictScan cur (n :: rest) infs m best = evictScan cur rest infs m best by
            simp [evictScan, hb, hd, hdINF, hmd], heq]
        · intro q hq hqe
          rcases List.mem_cons.mp hq with hq1 | hq2
          · rw [hq1, hwn]; omega
          · exact hall q hq2 hqe
        · rcases hdisj with hl | ⟨v, pre, post, hB, hsplit, hvev, hvM, hmlt, hpre⟩
          · exact Or.inl hl
          · refine Or.inr ⟨v, n :: pre, post, hB, by rw [hsplit]; rfl, hvev, hvM, hmlt, ?_⟩
            intro p hp hpe
            rcases List.mem_cons.mp hp with hp1 | hp2
            · rw [hp1, hwn]; omega
            · exact hpre p hp2 hpe

theorem minEarliestAux_spec :
    ∀ (l : List LRUKNode) (b : LRUKNode), b.history ≠ [] → (∀ n ∈ l, n.history ≠ []) →
      ∃ v, minEarliestAux b l = .ok v ∧ (v = b ∨ v ∈ l) ∧ v.history ≠ [] ∧
        headTs v ≤ headTs b ∧ ∀ n ∈ l, headTs v ≤ headTs n := by
  intro l
  induction l with
  | nil =>
    intro b hb _
    exact ⟨b, rfl, Or.inl rfl, hb, le_refl _, by simp⟩
  | cons n rest ih =>
    intro b hb hl
    have hn : n.history ≠ [] := hl n (List.mem_cons_self n rest)
    have hrest : ∀ x ∈ rest, x.history ≠ [] := fun x hx => hl x (List.mem_cons_of_mem n hx)
    have hen := earliest_of_ne hn
    have heb := earliest_of_ne hb
    by_cases hlt : headTs n < headTs b
    · obtain ⟨v, heq, hmem, hvne, hle, hall⟩ := ih n hn hrest
      refine ⟨v, ?_, ?_, hvne, by omega, ?_⟩
      · rw [show minEarliestAux b (n :: rest) = minEarliestAux n rest by
          simp [minEarliestAux, hen, heb, hlt], heq]
      · rcases hmem with h1 | h2
        · exact Or.inr (h1 ▸ List.mem_cons_self n rest)
        · exact Or.inr (List.mem_cons_of_mem n h2)
      · intro x hx
        rcases List.mem_cons.mp hx with hx1 | hx2
        · rw [hx1]; exact hle
        · exact hall x hx2
    · obtain ⟨v, heq, hmem, hvne, hle, hall⟩ := ih b hb hrest
      refine ⟨v, ?_, ?_, hvne, hle, ?_⟩
      · rw [show minEarliestAux b (n :: rest) = minEarliestAux b rest by
          simp [minEarliestAux, hen, heb, hlt], heq]
      · rcases hmem with h1 | h2
        · exact Or.inl h1
        · exact Or.inr (List.mem_cons_of_mem n h2)
      · intro x hx
        rcases List.mem_cons.mp hx with hx1 | hx2
        · rw [hx1]; omega
        · exact hall x hx2

/-- Reachable-state invariants of one replacer node: created on first access
(non-empty history), history bounded by `k` and matching the replacer's `k`,
`total_weight` equal to the sum of the history weights, weights at least one
and timestamps preceding the current timestamp, with numeric bounds that keep
the `size_t` products far from wrap-around. -/
abbrev WFNode (kk cur : Nat) (n : LRUKNode) : Prop :=
  n.k = kk ∧ n.history ≠ [] ∧ n.history.length ≤ n.k ∧
  n.totalWeight = (n.history.map AccessEntry.weight).sum ∧
  (∀ e ∈ n.history, 1 ≤ e.weight ∧ e.ts < cur) ∧
  n.totalWeight ≤ 65536

/-- Reachable-state invariants of the replacer: positive `k`, bounded
timestamp counter, well-formed nodes, `curr_size_` counting the evictable
nodes, unique frame ids, and globally distinct earliest timestamps (every
recorded access consumes a fresh timestamp). -/
abbrev WFReplacer (r : LRUKReplacer) : Prop :=
  1 ≤ r.k ∧ r.currTs ≤ 4294967296 ∧
  (∀ n ∈ r.store, WFNode r.k r.currTs n) ∧
  r.currSize = (r.store.filter (fun n => n.evictable)).length ∧
  r.store.Pairwise (fun a b => a.fid ≠ b.fid) ∧
  r.store.Pairwise (fun a b => a.getEarliestTimestamp ≠ b.getEarliestTimestamp)

/-- C5 (amended): `Evict` over a well-formed replacer state.  (1) It returns
null exactly when no evictable node exists.  (2) If some evictable node has
fewer than `K` accesses, the victim is the infinite-distance evictable node
with the smallest earliest timestamp, and its entry is removed.  (3) If all
evictable nodes have at least `K` accesses, the victim is the first node in
node-store iteration order attaining the maximal weighted K-back distance
among evictable nodes — ties are resolved by iteration order of the
unordered map, not by smallest frame id — and its entry is removed. -/
theorem lruEvict_policy (r : LRUKReplacer) (hwf : WFReplacer r) :
    (lruEvict r = .ok none ↔ r.store.filter (fun n => n.evictable) = []) ∧
    (∀ n0 ∈ r.store, n0.evictable = true → n0.history.length < n0.k →
      ∃ v, lruEvict r = .ok (some (v.fid,
          { r with store := r.store.filter (fun m => m.fid != v.fid),
                   currSize := r.currSize - 1 })) ∧
        v ∈ r.store ∧ v.evictable = true ∧ v.history.length < v.k ∧
        ∀ m ∈ r.store, m.evictable = true → m.history.length < m.k → m ≠ v →
          headTs v < headTs m) ∧
    (r.store.filter (fun n => n.evictable) ≠ [] →
      (∀ n0 ∈ r.store, n0.evictable = true → n0.k ≤ n0.history.length) →
      ∃ v pre post, lruEvict r = .ok (some (v.fid,
          { r with store := r.store.filter (fun m => m.fid != v.fid),
                   currSize := r.currSize - 1 })) ∧
        r.store = pre ++ v :: post ∧ v.evictable = true ∧
        (∀ m ∈ r.store, m.evictable = true → wkdVal r.currTs m ≤ wkdVal r.currTs v) ∧
        ∀ p ∈ pre, p.evictable = true → wkdVal r.currTs p < wkdVal r.currTs v) := by
  obtain ⟨hk, hcur, hnodes, hsize, hfids, hts⟩ := hwf
  have hWFd : ∀ n ∈ r.store, n.evictable = true →
      ∃ d, n.getWeightedKBackDist r.currTs = some d := by
    intro n hn _
    by_cases hl : n.history.length < n.k
    · exact ⟨INF_TIMESTAMP, wkd_of_infinite _ n hl⟩
    · obtain ⟨hk2, hne, hlen, htw, hwts, htwb⟩ := hnodes n hn
      exact ⟨wkdVal r.currTs n,
        (wkd_of_finite r.currTs n (by omega) hne hlen htw hwts htwb hcur (not_lt.mp hl)).1⟩
  by_cases hev : r.store.filter (fun n => n.evictable) = []
  · have hsz : r.currSize = 0 := by rw [hsize, hev]; rfl
    have hEq : lruEvict r = .ok none := by
      unfold lruEvict
      rw [if_pos (Or.inr hsz)]
    refine ⟨⟨fun _ => hev, fun _ => hEq⟩, ?_, ?_⟩
    · intro n0 hn0 he0 _
      have hmem : n0 ∈ r.store.filter (fun n => n.evictable) :=
        List.mem_filter.mpr ⟨hn0, he0⟩
      rw [hev] at hmem
      cases hmem
    · intro hne _
      exact absurd hev hne
  · have hstne : ¬r.store = [] := by
      intro h0
      rw [h0] at hev
      exact hev rfl
    have hszne : ¬r.currSize = 0 := by
      rw [hsize]
      intro h0
      exact hev (List.length_eq_zero.mp h0)
    have hguard : ¬(r.store = [] ∨ r.currSize = 0) := by
      intro h
      rcases h with h | h
      · exact hstne h
      · exact hszne h
    have hinfP : ∀ n ∈ r.store,
        (infP r.currTs n = true ↔ n.evictable = true ∧ n.history.length < n.k) := by
      intro n hn
      constructor
      · intro hp
        unfold infP at hp
        rw [Bool.and_eq_true] at hp
        obtain ⟨he, hbeq⟩ := hp
        have heq : n.getWeightedKBackDist r.currTs = some INF_TIMESTAMP := by
          exact eq_of_beq hbeq
        refine ⟨he, ?_⟩
        by_contra hge
        push_neg at hge
        obtain ⟨hk2, hne, hlen, htw, hwts, htwb⟩ := hnodes n hn
        obtain ⟨h1, _, h3⟩ :=
          wkd_of_finite r.currTs n (by omega) hne hlen htw hwts htwb hcur hge
        rw [heq] at h1
        have : INF_TIMESTAMP = wkdVal r.currTs n := by
          injection h1
        omega
      · intro h
        unfold infP
        rw [Bool.and_eq_true]
        refine ⟨h.1, ?_⟩
        rw [wkd_of_infinite r.currTs n h.2]
        simp
    by_cases hinf : ∃ n, n ∈ r.store ∧ n.evictable = true ∧ n.history.length < n.k
    · obtain ⟨nW, hnW, hnWe, hnWl⟩ := hinf
      obtain ⟨m2, best2, hscan⟩ := evictScan_infs r.currTs r.store [] 0 none hWFd
      rw [List.nil_append] at hscan
      have hWmem : nW ∈ r.store.filter (infP r.currTs) :=
        List.mem_filter.mpr ⟨hnW, (hinfP nW hnW).mpr ⟨hnWe, hnWl⟩⟩
      cases hflt : r.store.filter (infP r.currTs) with
      | nil =>
        rw [hflt] at hWmem
        cases hWmem
      | cons i is =>
        have hmemhist : ∀ x ∈ r.store.filter (infP r.currTs), x.history ≠ [] := by
          intro x hx
          exact (hnodes x (List.mem_filter.mp hx).1).2.1
        have hi : i.history ≠ [] := by
          apply hmemhist
          rw [hflt]
          exact List.mem_cons_self i is
        have his : ∀ x ∈ is, x.history ≠ [] := by
          intro x hx
          apply hmemhist
          rw [hflt]
          exact List.mem_cons_of_mem i hx
        obtain ⟨v, hmin, hvmem, hvne, hvle, hvall⟩ := minEarliestAux_spec is i hi his
        have hvflt : v ∈ r.store.filter (infP r.currTs) := by
          rw [hflt]
          rcases hvmem with h1 | h2
          · rw [h1]; exact List.mem_cons_self i is
          · exact List.mem_cons_of_mem i h2
        have hvstore : v ∈ r.store := (List.mem_filter.mp hvflt).1
        obtain ⟨hve, hvlen⟩ := (hinfP v hvstore).mp (List.mem_filter.mp hvflt).2
        have hmins : ∀ m ∈ r.store.filter (infP r.currTs), headTs v ≤ headTs m := by
          intro m hm
          rw [hflt] at hm
          rcases List.mem_cons.mp hm with h1 | h2
          · rw [h1]; exact hvle
          · exact hvall m h2
        have hres : lruEvict r = .ok (some (v.fid,
            { r with store := r.store.filter (fun m => m.fid != v.fid),
                     currSize := r.currSize - 1 })) := by
          unfold lruEvict
          rw [if_neg hguard, hscan, hflt]
          simp [hmin]
        refine ⟨?_, ?_, ?_⟩
        · constructor
          · intro h
            rw [hres] at h
            cases h
          · intro h
            exact absurd h hev
        · intro n0 hn0 he0 hl0
          refine ⟨v, hres, hvstore, hve, hvlen, ?_⟩
          intro m hm hme hml hmne
          have hmflt : m ∈ r.store.filter (infP r.currTs) :=
            List.mem_filter.mpr ⟨hm, (hinfP m hm).mpr ⟨hme, hml⟩⟩
          have hle := hmins m hmflt
          have hsymm : Symmetric (fun a b : LRUKNode =>
              a.getEarliestTimestamp ≠ b.getEarliestTimestamp) :=
            fun a b h => h.symm
          have hneq := List.Pairwise.forall hsymm hts hm hvstore hmne
          have hem := earliest_of_ne ((hnodes m hm).2.1)
          have hev2 := earliest_of_ne ((hnodes v hvstore).2.1)
          rw [hem, hev2] at hneq
          have : headTs m ≠ headTs v := by
            intro h
            exact hneq (by rw [h])
          omega
        · intro _ hallfin
          have := hallfin nW hnW hnWe
          omega
    · have hfin2 : ∀ n ∈ r.store, n.evictable = true → n.k ≤ n.history.length := by
        intro n hn he
        by_contra h
        push_neg at h
        exact hinf ⟨n, hn, he, h⟩
      have hfinw : ∀ n ∈ r.store, n.evictable = true →
          ∃ d, n.getWeightedKBackDist r.currTs = some d ∧
            d ≠ INF_TIMESTAMP ∧ 1 ≤ d := by
        intro n hn he
        obtain ⟨hk2, hne, hlen, htw, hwts, htwb⟩ := hnodes n hn
        obtain ⟨h1, h2, h3⟩ :=
          wkd_of_finite r.currTs n (by omega) hne hlen htw hwts htwb hcur (hfin2 n hn he)
        exact ⟨wkdVal r.currTs n, h1, by omega, h2⟩
      obtain ⟨M, B, hscan, _, hall, hdisj⟩ := evictScan_finite r.currTs r.store [] 0 none hfinw
      obtain ⟨q0, hq0⟩ := List.exists_mem_of_ne_nil _ hev
      have hq0s : q0 ∈ r.store := (List.mem_filter.mp hq0).1
      have hq0e : q0.evictable = true := (List.mem_filter.mp hq0).2
      rcases hdisj with ⟨hB, hM⟩ | ⟨v, pre, post, hB, hsplit, hvev, hvM, _, hpre⟩
      · obtain ⟨d, hd, _, hd1⟩ := hfinw q0 hq0s hq0e
        have := hall q0 hq0s hq0e
        rw [wkdVal_eq hd] at this
        omega
      · have hres : lruEvict r = .ok (some (v.fid,
            { r with store := r.store.filter (fun m => m.fid != v.fid),
                     currSize := r.currSize - 1 })) := by
          unfold lruEvict
          rw [if_neg hguard, hscan]
          simp [hB]
        refine ⟨?_, ?_, ?_⟩
        · constructor
          · intro h
            rw [hres] at h
            cases h
          · intro h
            exact absurd h hev
        · intro n0 hn0 he0 hl0
          exact absurd ⟨n0, hn0, he0, hl0⟩ hinf
        · intro _ _
          refine ⟨v, pre, post, hres, hsplit, hvev, ?_, ?_⟩
          · intro m hm hme
            rw [hvM]
            exact hall m hm hme
          · intro p hp hpe
            rw [hvM]
            exact hpre p hp hpe

/-- A replacer state with two finite evictable nodes (frame ids 5 and 3) that
tie on weighted K-back distance, listed with frame id 5 first in the node
store's iteration order, plus a non-evictable node (frame id 0). -/
def exTieA : LRUKNode := ⟨3, 2, true, [⟨1, 1⟩, ⟨2, 1⟩], 2⟩

/-- Second tied node: frame id 5, accesses at timestamps 3 and 4 with
weights 1 and 2. -/
def exTieB : LRUKNode := ⟨5, 2, true, [⟨3, 1⟩, ⟨4, 2⟩], 3⟩

/-- Non-evictable node with frame id 0. -/
def exTieC : LRUKNode := ⟨0, 2, false, [⟨5, 1⟩, ⟨6, 1⟩], 2⟩

/-- The tied replacer state: `K = 2`, current timestamp 7, capacity 8. -/
def exTieR : LRUKReplacer := ⟨[exTieB, exTieA, exTieC], 2, 7, 2, 8⟩

/-- The state after evicting frame 5 from `exTieR`. -/
def exTieR2 : LRUKReplacer := ⟨[exTieA, exTieC], 1, 7, 2, 8⟩

/-- C5 counterexample: in `exTieR` the evictable nodes with frame ids 5 and 3
both have the maximal weighted K-back distance 6 (`3 * (7 - 3) / 2` and
`2 * (7 - 1) / 2`), so the claimed smallest-frame-id tiebreak would evict
frame 3; `Evict` instead returns frame 5, the first maximal node in the node
store's iteration order. -/
theorem lruEvict_fid_tiebreak_cex :
    exTieA.fid = 3 ∧ exTieB.fid = 5 ∧
    exTieA.evictable = true ∧ exTieB.evictable = true ∧
    exTieA.getWeightedKBackDist exTieR.currTs = some 6 ∧
    exTieB.getWeightedKBackDist exTieR.currTs = some 6 ∧
    (∀ n ∈ exTieR.store, n.evictable = true → wkdVal exTieR.currTs n ≤ 6) ∧
    lruEvict exTieR = .ok (some (5, exTieR2)) :=
  ⟨rfl, rfl, rfl, rfl, by decide, by decide, by decide, rfl⟩

/-- C5 witness: the amended eviction-policy theorem applied to the concrete
well-formed state `exTieR`. -/
theorem lruEvict_policy_witness :
    WFReplacer exTieR ∧
      (lruEvict exTieR = .ok none ↔ exTieR.store.filter (fun n => n.evictable) = []) :=
  ⟨by decide, (lruEvict_policy exTieR (by decide)).1⟩

/-! ### Extendible hash table directory page
(`src/storage/page/extendible_htable_directory_page.cpp`) -/

/-- `ExtendibleHTableDirectoryPage` (fixed layout, spec §3 and §6): depths and
bucket pointers; the fixed-length 512-entry arrays are modelled as total
functions on indices. -/
structure DirectoryPage where
  max_depth : Nat
  global_depth : Nat
  local_depths : Nat → Nat
  bucket_page_ids : Nat → Int

/-- `Size()` = `1 << global_depth_`
(extendible_htable_directory_page.cpp 102). -/
def dirSize (d : DirectoryPage) : Nat := 2 ^ d.global_depth

/-- `CanShrink` (extendible_htable_directory_page.cpp 88-100): false at
global depth zero; otherwise true iff no entry of the active region has
`local_depth == global_depth`. -/
def canShrink (d : DirectoryPage) : Bool :=
  if d.global_depth = 0 then false
  else (List.range (dirSize d)).all fun i => d.local_depths i != d.global_depth

/-- The pairwise shrink condition in the words of the spec (§4.6) and of
claim C6: `global_depth > 0` and every entry of the lower half agrees with
its counterpart across the half boundary on both bucket page id and local
depth.  Stated for comparison with `canShrink`; it is not what the code
computes. -/
def pairwiseCanShrink (d : DirectoryPage) : Bool :=
  decide (0 < d.global_depth) &&
    ((List.range (dirSize d / 2)).all fun i =>
      (d.bucket_page_ids i == d.bucket_page_ids (i + dirSize d / 2)) &&
      (d.local_depths i == d.local_depths (i + dirSize d / 2)))

/-- A directory at global depth 1 whose two active entries point at different
buckets (10 and 11) while both local depths are 0. -/
def exDir : DirectoryPage :=
  ⟨2, 1, fun _ => 0, fun i => if i = 0 then 10 else 11⟩

/-- C6 counterexample: on `exDir`, no active entry has
`local_depth == global_depth`, so the code's `CanShrink` returns true, yet
the claimed pairwise condition fails because entries 0 and 1 point at
different buckets. -/
theorem canShrink_pairwise_cex :
    canShrink exDir = true ∧ pairwiseCanShrink exDir = false ∧
    exDir.global_depth = 1 ∧
    exDir.bucket_page_ids 0 = 10 ∧ exDir.bucket_page_ids 1 = 11 := by
  decide

/-- C6 (amended): `CanShrink` returns true iff `global_depth > 0` and no
index of the active region `[0, Size)` has local depth equal to the global
depth — the "simpler variant" of spec §4.6, which is what the code
implements, rather than the pairwise formulation across the half boundary. -/
theorem canShrink_iff (d : DirectoryPage) :
    canShrink d = true ↔
      0 < d.global_depth ∧ ∀ i < dirSize d, d.local_depths i ≠ d.global_depth := by
  unfold canShrink
  by_cases h : d.global_depth = 0
  · simp [h]
  · rw [if_neg h]
    rw [List.all_eq_true]
    constructor
    · intro hall
      refine ⟨Nat.pos_of_ne_zero h, ?_⟩
      intro i hi
      have := hall i (List.mem_range.mpr hi)
      exact bne_iff_ne.mp this
    · intro hh i hi
      exact bne_iff_ne.mpr (hh.2 i (List.mem_range.mp hi))

/-! ### Buffer pool manager (`src/buffer/buffer_pool_manager.cpp`)

Disk I/O is modelled by the list of requests the operation schedules (and
synchronously waits on): each entry records the write flag and page id of one
`DiskRequest` handed to the `DiskScheduler`.  Page byte contents are not
modelled; the claims below concern which requests are scheduled and how the
metadata evolves.  `pages_[fid]` accesses are bounds-checked in the
embedding; an out-of-bounds index (undefined in C++) yields `none`. -/

/-- `INVALID_PAGE_ID = -1` (spec §6). -/
def INVALID_PAGE_ID : Int := -1

/-- A page frame's metadata (`Page` class, declared in a header outside
`src/`; fields per spec §3). -/
structure Frame where
  page_id : Int
  pin_count : Nat
  is_dirty : Bool
deriving DecidableEq, Repr

/-- One `DiskRequest` as observed by the scheduler (disk_scheduler.h 27-43):
the write flag and the page id; the buffer pointer is not modelled. -/
structure DiskOp where
  is_write : Bool
  page_id : Int
deriving DecidableEq, Repr

/-- Buffer pool state (`buffer_pool_manager.h` fields; spec §3):
`pages_` as a list indexed by frame id, the page table, the free list,
the page-id counter and the replacer. -/
structure BPMState where
  frames : List Frame
  pageTable : List (Int × Nat)
  freeList : List Nat
  nextPageId : Int
  replacer : LRUKReplacer
deriving DecidableEq, Repr

/-- `page_table_.find(pid)`. -/
def lookupPT : List (Int × Nat) → Int → Option Nat
  | [], _ => none
  | (p, f) :: rest, pid => if p = pid then some f else lookupPT rest pid

/-- `page_table_.erase(pid)` (keys are unique). -/
def erasePT (pt : List (Int × Nat)) (pid : Int) : List (Int × Nat) :=
  pt.filter fun e => e.1 != pid

/-- `page_table_[pid] = fid`: update in place, or insert. -/
def insertPT : List (Int × Nat) → Int → Nat → List (Int × Nat)
  | [], pid, fid => [(pid, fid)]
  | (p, f) :: rest, pid, fid =>
    if p = pid then (pid, fid) :: rest else (p, f) :: insertPT rest pid fid

/-- `BufferPoolManager::ResetPageMetaInFrame` (bpm.cpp 40-44). -/
def resetPageMeta (f : Frame) : Frame :=
  { f with is_dirty := false, page_id := INVALID_PAGE_ID, pin_count := 0 }

/-- `BufferPoolManager::WritePageToDisk` (bpm.cpp 148-163): false without
any I/O when the page id is unmapped; otherwise schedule a synchronous write
of that frame and clear its dirty bit. -/
def writePageToDisk (st : BPMState) (pid : Int) :
    Option (Bool × BPMState × List DiskOp) :=
  match lookupPT st.pageTable pid with
  | none => some (false, st, [])
  | some fid =>
    match st.frames[fid]? with
    | none => none
    | some f =>
      some (true,
        { st with frames := st.frames.set fid { f with is_dirty := false } },
        [⟨true, pid⟩])

/-- `BufferPoolManager::UnpinPage` (bpm.cpp 125-146). -/
def unpinPage (st : BPMState) (pid : Int) (isDirty : Bool) :
    Option (Bool × BPMState) :=
  match lookupPT st.pageTable pid with
  | none => some (false, st)
  | some fid =>
    match st.frames[fid]? with
    | none => none
    | some f =>
      if f.pin_count = 0 then some (false, st)
      else
        let f2 : Frame :=
          { f with
            pin_count := f.pin_count - 1,
            is_dirty := if !f.is_dirty && isDirty then true else f.is_dirty }
        let st2 : BPMState := { st with frames := st.frames.set fid f2 }
        if f2.pin_count = 0 then
          match lruSetEvictable st2.replacer fid true with
          | none => none
          | some r2 => some (true, { st2 with replacer := r2 })
        else some (true, st2)

/-- `BufferPoolManager::NewPage` (bpm.cpp 46-77).  Returns
`(result, state, scheduled I/O)`: `result = none` is the null return when
neither a free nor an evictable frame exists.  In the eviction branch the
dirty victim is written to disk and only then removed from the page table
(bpm.cpp 58-62). -/
def newPage (st : BPMState) : Option (Option (Int × Nat) × BPMState × List DiskOp) :=
  if st.freeList = [] ∧ lruSize st.replacer = 0 then some (none, st, [])
  else
    match
      (match st.freeList with
       | fid :: rest => some (fid, { st with freeList := rest }, ([] : List DiskOp))
       | [] =>
         match lruEvict st.replacer with
         | .error () => none
         | .ok none => none
         | .ok (some (fid, r2)) =>
           let st1 : BPMState := { st with replacer := r2 }
           match st1.frames[fid]? with
           | none => none
           | some vf =>
             match
               (if vf.is_dirty then writePageToDisk st1 vf.page_id
                else some (false, st1, [])) with
             | none => none
             | some (_, st2, log1) =>
               some (fid, { st2 with pageTable := erasePT st2.pageTable vf.page_id },
                 log1)) with
    | none => none
    | some (fid, st3, log1) =>
      let pid := st3.nextPageId
      let st4 : BPMState :=
        { st3 with
          nextPageId := pid + 1,
          pageTable := insertPT st3.pageTable pid fid }
      match st4.frames[fid]? with
      | none => none
      | some f =>
        let f5 : Frame := { resetPageMeta f with page_id := pid }
        let st5 : BPMState := { st4 with frames := st4.frames.set fid f5 }
        match lruRecordAccess st5.replacer fid .unknown with
        | none => none
        | some r3 =>
          match lruSetEvictable r3 fid false with
          | none => none
          | some r4 =>
            let st6 : BPMState :=
              { st5 with
                replacer := r4,
                frames := st5.frames.set fid { f5 with pin_count := f5.pin_count + 1 } }
            some (some (pid, fid), st6, log1)

/-- `BufferPoolManager::FetchPage` (bpm.cpp 79-123).  On a hit, pin and
record the access.  On a miss, obtain a frame — in the eviction branch the
victim's page id is erased from the page table BEFORE the dirty check
(bpm.cpp 93-100), so the subsequent `WritePageToDisk` finds the page
unmapped and performs no write — then install the page and schedule the
read. -/
def fetchPage (st : BPMState) (pid : Int) :
    Option (Option Nat × BPMState × List DiskOp) :=
  match lookupPT st.pageTable pid with
  | some fid =>
    match st.frames[fid]? with
    | none => none
    | some f =>
      let st1 : BPMState :=
        { st with frames := st.frames.set fid { f with pin_count := f.pin_count + 1 } }
      match lruRecordAccess st1.replacer fid .unknown with
      | none => none
      | some r2 =>
        match lruSetEvictable r2 fid false with
        | none => none
        | some r3 => some (some fid, { st1 with replacer := r3 }, [])
  | none =>
    if st.freeList = [] ∧ lruSize st.replacer = 0 then some (none, st, [])
    else
      match
        (match st.freeList with
         | fid :: rest => some (fid, { st with freeList := rest })
         | [] =>
           match lruEvict st.replacer with
           | .error () => none
           | .ok none => none
           | .ok (some (fid, r2)) =>
             let st1 : BPMState := { st with replacer := r2 }
             match st1.frames[fid]? with
             | none => none
             | some vf =>
               some (fid,
                 { st1 with pageTable := erasePT st1.pageTable vf.page_id })) with
      | none => none
      | some (fid, st2) =>
        match st2.frames[fid]? with
        | none => none
        | some f =>
          match
            (if f.is_dirty then writePageToDisk st2 f.page_id
             else some (false, st2, [])) with
          | none => none
          | some (_, st3, log1) =>
            match st3.frames[fid]? with
            | none => none
            | some f3 =>
              let st4 : BPMState :=
                { st3 with
                  frames := st3.frames.set fid { resetPageMeta f3 with page_id := pid },
                  pageTable := insertPT st3.pageTable pid fid }
              let log2 := log1 ++ [⟨false, pid⟩]
              match st4.frames[fid]? with
              | none => none
              | some f4 =>
                let st5 : BPMState :=
                  { st4 with
                    frames := st4.frames.set fid { f4 with pin_count := f4.pin_count + 1 } }
                match lruRecordAccess st5.replacer fid .unknown with
                | none => none
                | some r3 =>
                  match lruSetEvictable r3 fid false with
                  | none => none
                  | some r4 => some (some fid, { st5 with replacer := r4 }, log2)

/-- `BufferPoolManager::FlushPage` (bpm.cpp 165-168). -/
def flushPage (st : BPMState) (pid : Int) : Option (Bool × BPMState × List DiskOp) :=
  writePageToDisk st pid

/-- The `BufferPoolManager` constructor (bpm.cpp 21-36): all frames free and
reset, empty page table, replacer of matching capacity. -/
def initBPM (poolSize k : Nat) : BPMState :=
  { frames := List.replicate poolSize ⟨INVALID_PAGE_ID, 0, false⟩,
    pageTable := [], freeList := List.range poolSize, nextPageId := 0,
    replacer := ⟨[], 0, 0, k, poolSize⟩ }

/-! #### Buffer pool theorems -/

/-- The pool state reached from a fresh one-frame pool (`K = 2`) by
`NewPage` (allocating page 0, pinned) followed by `UnpinPage(0, true)`:
frame 0 holds page 0, unpinned and dirty, and is evictable. -/
def exC1st : BPMState :=
  ⟨[⟨0, 0, true⟩], [(0, 0)], [], 1, ⟨[⟨0, 2, true, [⟨0, 1⟩], 1⟩], 1, 1, 2, 1⟩⟩

/-- The operation chain producing `exC1st`. -/
def exC1chain : Option BPMState :=
  match newPage (initBPM 1 2) with
  | some (some _, st1, _) =>
    match unpinPage st1 0 true with
    | some (true, st2) => some st2
    | _ => none
  | _ => none

/-- C1: from the reachable state `exC1st` — one frame holding the dirty page
0, evictable — `FetchPage(1)` misses, evicts that victim, and schedules only
the read of page 1: no write of the dirty victim is ever issued, because the
victim's page id is erased from the page table (bpm.cpp 95) before
`WritePageToDisk` is called (bpm.cpp 98-100), whose lookup then fails.  In
the same state `NewPage` — whose eviction path writes before erasing
(bpm.cpp 58-62) — does schedule the write of page 0. -/
theorem fetchPage_loses_dirty_victim :
    exC1chain = some exC1st ∧
    exC1st.frames[0]?.map Frame.is_dirty = some true ∧
    exC1st.frames[0]?.map Frame.page_id = some 0 ∧
    (fetchPage exC1st 1).map (fun r => r.2.2) = some [⟨false, 1⟩] ∧
    (newPage exC1st).map (fun r => r.2.2) = some [⟨true, 0⟩] :=
  ⟨rfl, rfl, rfl, rfl, rfl⟩

theorem lookupPT_mem :
    ∀ (pt : List (Int × Nat)) (pid : Int) (fid : Nat),
      lookupPT pt pid = some fid → fid ∈ pt.map Prod.snd := by
  intro pt
  induction pt with
  | nil =>
    intro pid fid h
    cases h
  | cons e rest ih =>
    intro pid fid h
    obtain ⟨p, f⟩ := e
    by_cases hp : p = pid
    · simp [lookupPT, hp] at h
      simp [h]
    · simp [lookupPT, hp] at h
      simp [ih pid fid h]

/-- C9: `UnpinPage` returns false and leaves the state unchanged exactly when
the page id is unmapped or the frame's pin count is already zero; otherwise
it decrements the pin count, ORs the dirty flag into the frame (a set bit is
never cleared), marks the frame evictable in the replacer exactly when the
pin count reaches zero, and returns true.  The membership hypothesis is the
pool invariant that every mapped frame has a replacer node. -/
theorem unpinPage_spec (st : BPMState) (pid : Int) (d : Bool)
    (hrep : ∀ fid ∈ st.pageTable.map Prod.snd,
      (findNode st.replacer.store fid).isSome = true) :
    (unpinPage st pid d = some (false, st) ↔
      lookupPT st.pageTable pid = none ∨
      ∃ fid f, lookupPT st.pageTable pid = some fid ∧ st.frames[fid]? = some f ∧
        f.pin_count = 0) ∧
    (∀ fid f, lookupPT st.pageTable pid = some fid → st.frames[fid]? = some f →
      0 < f.pin_count →
      ∃ r2, lruSetEvictable st.replacer fid true = some r2 ∧
        unpinPage st pid d = some (true,
          { st with
            frames := st.frames.set fid
              { f with pin_count := f.pin_count - 1, is_dirty := f.is_dirty || d },
            replacer := if f.pin_count = 1 then r2 else st.replacer })) := by
  have hdirty : ∀ f : Frame,
      (if !f.is_dirty && d then true else f.is_dirty) = (f.is_dirty || d) := by
    intro f
    cases hfd : f.is_dirty <;> cases d <;> rfl
  have hdirty2 : ∀ a : Bool, (!a && d || a) = (a || d) := by
    intro a
    cases a <;> cases d <;> rfl
  constructor
  · cases hl : lookupPT st.pageTable pid with
    | none =>
      simp [unpinPage, hl]
    | some fid =>
      cases hg : st.frames[fid]? with
      | none =>
        apply iff_of_false
        · simp [unpinPage, hl, hg]
        · intro h
          rcases h with h | ⟨fid2, f2, h1, h2, _⟩
          · simp [hl] at h
          · injection h1 with h1
            subst h1
            rw [hg] at h2
            cases h2
      | some f =>
        by_cases hp : f.pin_count = 0
        · apply iff_of_true
          · simp [unpinPage, hl, hg, hp]
          · exact Or.inr ⟨fid, f, rfl, hg, hp⟩
        · apply iff_of_false
          · simp only [unpinPage, hl, hg]
            rw [if_neg hp]
            by_cases hq : f.pin_count - 1 = 0
            · simp only [hq, if_pos]
              cases hse : lruSetEvictable st.replacer fid true with
              | none => simp [hse]
              | some r2 => simp [hse]
            · simp [hq]
          · intro h
            rcases h with h | ⟨fid2, f2, h1, h2, h3⟩
            · simp [hl] at h
            · injection h1 with h1
              subst h1
              rw [hg] at h2
              injection h2 with h2
              rw [← h2] at h3
              exact hp h3
  · intro fid f hl hg hp
    have hpne : ¬f.pin_count = 0 := by omega
    have hmem := lookupPT_mem st.pageTable pid fid hl
    have hsome := hrep fid hmem
    cases hfind : findNode st.replacer.store fid with
    | none =>
      rw [hfind] at hsome
      cases hsome
    | some n =>
      have hset : ∃ r2, lruSetEvictable st.replacer fid true = some r2 := by
        unfold lruSetEvictable
        rw [hfind]
        by_cases he : n.evictable
        · simp [he]
        · simp [he]
      obtain ⟨r2, hr2⟩ := hset
      refine ⟨r2, hr2, ?_⟩
      simp only [unpinPage, hl, hg]
      rw [if_neg hpne]
      by_cases h1 : f.pin_count = 1
      · have hz : f.pin_count - 1 = 0 := by omega
        simp [hz, hr2, h1, hdirty f, hdirty2]
      · have hz : ¬f.pin_count - 1 = 0 := by omega
        simp [hz, h1, hdirty f, hdirty2]

/-- The pool state right after `NewPage` on a fresh one-frame pool: page 0
pinned once in frame 0. -/
def exC9st : BPMState :=
  ⟨[⟨0, 1, false⟩], [(0, 0)], [], 1, ⟨[⟨0, 2, false, [⟨0, 1⟩], 1⟩], 0, 1, 2, 1⟩⟩

/-- C9 witness: the `UnpinPage` characterisation applied to the concrete
pinned state `exC9st`. -/
theorem unpinPage_spec_witness :
    (∀ fid ∈ exC9st.pageTable.map Prod.snd,
      (findNode exC9st.replacer.store fid).isSome = true) ∧
    (unpinPage exC9st 0 true = some (false, exC9st) ↔
      lookupPT exC9st.pageTable 0 = none ∨
      ∃ fid f, lookupPT exC9st.pageTable 0 = some fid ∧
        exC9st.frames[fid]? = some f ∧ f.pin_count = 0) :=
  ⟨by decide, (unpinPage_spec exC9st 0 true (by decide)).1⟩

/-! ### Page guards (`src/storage/page/page_guard.cpp`)

A guard's interaction with the rest of the system is recorded as a list of
`GuardAction`s: `UnpinPage` calls into the pool and latch releases on the
page.  Latches live on the `Page` object and are not part of `BPMState`;
`applyGuardActions` therefore applies the unpin calls to a pool state and
skips the latch actions. -/

/-- An externally visible effect of a guard operation. -/
inductive GuardAction where
  | unpin (pid : Int) (isDirty : Bool)
  | runlatch (pid : Int)
  | wunlatch (pid : Int)
deriving DecidableEq, Repr

/-- `BasicPageGuard` (page_guard.h, outside `src/`; spec §4.5): a pool
pointer (modelled by whether it is non-null), a page pointer (the guarded
page's id, or `none` when null), and a dirty flag. -/
structure BasicPageGuard where
  has_bpm : Bool
  page : Option Int
  is_dirty : Bool
deriving DecidableEq, Repr

/-- `BasicPageGuard::DropNoUnpin` (page_guard.cpp 46-49): null both
pointers, keep the dirty flag. -/
def BasicPageGuard.dropNoUnpin (g : BasicPageGuard) : BasicPageGuard :=
  { g with has_bpm := false, page := none }

/-- `BasicPageGuard::Drop` (page_guard.cpp 14-21): a no-op when the pool or
page pointer is null; otherwise one `UnpinPage(page_id, is_dirty)` call, then
both pointers are nulled. -/
def BasicPageGuard.dropGuard (g : BasicPageGuard) : List GuardAction × BasicPageGuard :=
  match g.has_bpm, g.page with
  | false, _ => ([], g)
  | true, none => ([], g)
  | true, some pid => ([.unpin pid g.is_dirty], g.dropNoUnpin)

/-- `BasicPageGuard` move constructor (page_guard.cpp 7-12): copy the fields,
empty the source; no pool call. -/
def BasicPageGuard.moveCtor (that : BasicPageGuard) :
    BasicPageGuard × BasicPageGuard :=
  (⟨that.has_bpm, that.page, that.is_dirty⟩, that.dropNoUnpin)

/-- `BasicPageGuard::operator=` for rvalues (page_guard.cpp 23-30): the
target's fields are overwritten with the source's — without dropping the
frame the target held — and the source is emptied; no `UnpinPage` call is
made (the empty action list records this).  Returns (new target, new source,
actions). -/
def BasicPageGuard.moveAssign (_self that : BasicPageGuard) :
    BasicPageGuard × BasicPageGuard × List GuardAction :=
  (⟨that.has_bpm, that.page, that.is_dirty⟩, that.dropNoUnpin, [])

/-- `ReadPageGuard` (page_guard.h): wraps a basic guard. -/
structure ReadPageGuard where
  guard : BasicPageGuard
deriving DecidableEq, Repr

/-- `WritePageGuard` (page_guard.h): wraps a basic guard. -/
structure WritePageGuard where
  guard : BasicPageGuard
deriving DecidableEq, Repr

/-- `ReadPageGuard::Drop` (page_guard.cpp 58-61):
`guard_.page_->RUnlatch()` dereferences the page pointer unconditionally —
undefined (`.error ()`) when the guard is empty — then drops the inner
guard. -/
def ReadPageGuard.dropGuard (g : ReadPageGuard) :
    Except Unit (List GuardAction × ReadPageGuard) :=
  match g.guard.page with
  | none => .error ()
  | some pid =>
    let r := g.guard.dropGuard
    .ok (.runlatch pid :: r.1, ⟨r.2⟩)

/-- `WritePageGuard::Drop` (page_guard.cpp 72-76): `WUnlatch` (dereferencing
the page pointer unconditionally), then force `is_dirty = true`, then drop
the inner guard. -/
def WritePageGuard.dropGuard (g : WritePageGuard) :
    Except Unit (List GuardAction × WritePageGuard) :=
  match g.guard.page with
  | none => .error ()
  | some pid =>
    let g2 : BasicPageGuard := { g.guard with is_dirty := true }
    let r := g2.dropGuard
    .ok (.wunlatch pid :: r.1, ⟨r.2⟩)

/-- `ReadPageGuard` move constructor (page_guard.cpp 51, `= default`):
member-wise move of the inner basic guard, emptying the source. -/
def ReadPageGuard.moveCtor (that : ReadPageGuard) :
    ReadPageGuard × ReadPageGuard :=
  let r := BasicPageGuard.moveCtor that.guard
  (⟨r.1⟩, ⟨r.2⟩)

/-- Replay a guard's recorded actions against a pool state: unpin calls run
`unpinPage`; latch actions do not touch `BPMState`. -/
def applyGuardActions : List GuardAction → BPMState → Option BPMState
  | [], st => some st
  | .unpin pid dd :: rest, st =>
    match unpinPage st pid dd with
    | none => none
    | some (_, st2) => applyGuardActions rest st2
  | .runlatch _ :: rest, st => applyGuardActions rest st
  | .wunlatch _ :: rest, st => applyGuardActions rest st

/-- `BufferPoolManager::FetchPageBasic` (bpm.cpp 201): the stub returns
`{this, nullptr}` — a guard with a non-null pool pointer and a null page
pointer — and never touches the pool state, the page table, or any pin. -/
def fetchPageBasic (st : BPMState) (_pid : Int) : BasicPageGuard × BPMState :=
  (⟨true, none, false⟩, st)

/-- `BufferPoolManager::FetchPageRead` (bpm.cpp 203): stub, as
`FetchPageBasic`; no latch is taken. -/
def fetchPageRead (st : BPMState) (_pid : Int) : ReadPageGuard × BPMState :=
  (⟨⟨true, none, false⟩⟩, st)

/-- `BufferPoolManager::FetchPageWrite` (bpm.cpp 205): stub, as
`FetchPageBasic`; no latch is taken. -/
def fetchPageWrite (st : BPMState) (_pid : Int) : WritePageGuard × BPMState :=
  (⟨⟨true, none, false⟩⟩, st)

/-- `BufferPoolManager::NewPageGuarded` (bpm.cpp 207): stub returning
`{this, nullptr}`; no page is allocated and the out-parameter is never
written. -/
def newPageGuarded (st : BPMState) : BasicPageGuard × BPMState :=
  (⟨true, none, false⟩, st)

/-! #### Page guard theorems -/

/-- C2: the guarded fetch variants are stubs — on every pool state and page
id they return a guard whose page pointer is null (holding no frame, no pin,
no latch) and leave the pool state untouched, contradicting the claim that
the returned guard holds the requested page's frame with its pin taken. -/
theorem fetchPageGuards_hold_no_frame (st : BPMState) (pid : Int) :
    (fetchPageBasic st pid).1.page = none ∧ (fetchPageBasic st pid).2 = st ∧
    (fetchPageRead st pid).1.guard.page = none ∧ (fetchPageRead st pid).2 = st ∧
    (fetchPageWrite st pid).1.guard.page = none ∧ (fetchPageWrite st pid).2 = st ∧
    (newPageGuarded st).1.page = none ∧ (newPageGuarded st).2 = st :=
  ⟨rfl, rfl, rfl, rfl, rfl, rfl, rfl, rfl⟩

/-- An empty (detached) guard: non-null pool pointer, null page pointer. -/
def exEmptyGuard : BasicPageGuard := ⟨true, none, false⟩

/-- C4: dropping an empty basic guard is a silent no-op, but
`ReadPageGuard::Drop` and `WritePageGuard::Drop` dereference the null page
pointer of an empty guard (page_guard.cpp 59 and 73) — including the guard
left behind by a move, whose destructor runs `Drop` again. -/
theorem guard_drop_on_empty :
    BasicPageGuard.dropGuard exEmptyGuard = ([], exEmptyGuard) ∧
    ReadPageGuard.dropGuard ⟨exEmptyGuard⟩ = .error () ∧
    WritePageGuard.dropGuard ⟨exEmptyGuard⟩ = .error () ∧
    (ReadPageGuard.moveCtor ⟨⟨true, some 3, false⟩⟩).2.guard.page = none ∧
    ReadPageGuard.dropGuard (ReadPageGuard.moveCtor ⟨⟨true, some 3, false⟩⟩).2 =
      .error () :=
  ⟨rfl, rfl, rfl, rfl, rfl⟩

/-- C10: move-assigning into a basic guard that owns a frame performs no
unpin: the action list is empty — so replaying it leaves every pool state,
in particular the owned frame's pin count, unchanged — the target takes the
source's fields and the source is emptied. -/
theorem basicMoveAssign_no_unpin (a b : BasicPageGuard) (f : Int)
    (h : a.page = some f) :
    (BasicPageGuard.moveAssign a b).2.2 = [] ∧
    (BasicPageGuard.moveAssign a b).1 = ⟨b.has_bpm, b.page, b.is_dirty⟩ ∧
    (BasicPageGuard.moveAssign a b).2.1.page = none ∧
    (BasicPageGuard.moveAssign a b).2.1.has_bpm = false ∧
    ∀ st : BPMState, applyGuardActions (BasicPageGuard.moveAssign a b).2.2 st = some st :=
  ⟨rfl, rfl, rfl, rfl, fun _ => rfl⟩

/-- C10 witness: the move-assignment theorem applied to concrete guards, the
target owning page 0. -/
theorem basicMoveAssign_no_unpin_witness :
    (⟨true, some 0, false⟩ : BasicPageGuard).page = some 0 ∧
    (BasicPageGuard.moveAssign ⟨true, some 0, false⟩ ⟨true, some 1, true⟩).2.2 = [] :=
  ⟨rfl, (basicMoveAssign_no_unpin ⟨true, some 0, false⟩ ⟨true, some 1, true⟩ 0 rfl).1⟩

end BusTub
